import Mathlib

/-!
Shallow embedding of the WeKnora `docreader` service core
(`services/docreader/src/parser/base_parser.py`, `docx_parser.py`,
`server/server.py`) and proofs about its chunking, page reassembly,
image enrichment and UTF-8 sanitization behaviour.

Python strings are modelled as `List Char` (one element per code point);
`len`, slicing and concatenation translate to list length, `drop/take`
and append.  Python integers in the config (`chunk_size`, `chunk_overlap`,
`max_chunks`) are modelled as `Nat`, matching their non-negative use.
-/

namespace DocReader

/-- A Python string: a sequence of code points. -/
abbrev Str := List Char

/-- The set of characters Python's `str.isspace` (and hence the no-argument
`str.strip`) treats as whitespace: ASCII whitespace, the information
separators, NEL, NBSP and the Unicode space/line/paragraph separators. -/
def pyIsSpace (c : Char) : Bool :=
  c.toNat = 0x09 ∨ c.toNat = 0x0a ∨ c.toNat = 0x0b ∨ c.toNat = 0x0c ∨
  c.toNat = 0x0d ∨ c.toNat = 0x1c ∨ c.toNat = 0x1d ∨ c.toNat = 0x1e ∨
  c.toNat = 0x1f ∨ c.toNat = 0x20 ∨ c.toNat = 0x85 ∨ c.toNat = 0xa0 ∨
  c.toNat = 0x1680 ∨ (0x2000 ≤ c.toNat ∧ c.toNat ≤ 0x200a) ∨
  c.toNat = 0x2028 ∨ c.toNat = 0x2029 ∨ c.toNat = 0x202f ∨
  c.toNat = 0x205f ∨ c.toNat = 0x3000

/-- Python `s.strip()`: remove whitespace from both ends. -/
def pyStrip (s : Str) : Str :=
  ((s.dropWhile pyIsSpace).reverse.dropWhile pyIsSpace).reverse

/-- Python `"".join(units)`. -/
def joinS : List Str → Str
  | [] => []
  | u :: us => u ++ joinS us

/-- Python slice `t[a:b]` for 0 ≤ a, b (clamped to the string's bounds). -/
def sub (t : Str) (a b : Nat) : Str := (t.drop a).take (b - a)

/-! ### The protected-span regexes

`_split_into_units` protects `!\[.*?\]\(.*?\)` (markdown image) and
`\[.*?\]\(.*?\)` (markdown link) spans.  `.` does not match a newline and
the quantifiers are lazy with backtracking; the matchers below implement
exactly that search, returning the length of the match starting at the
head of the list. -/

/-- Position of the first `')'` reachable without crossing a newline:
the lazy `.*?\)` tail of both patterns. -/
def firstCloseParen : Str → Option Nat
  | [] => none
  | c :: rest =>
    if c = ')' then some 0
    else if c = '\n' then none
    else (firstCloseParen rest).map (· + 1)

/-- One attempt of the lazy scan: succeed here iff the current character
closes the bracket, `(` follows immediately, and a `)` is reachable
without crossing a newline; the returned length covers `](…)`. -/
def tryBracketAt (c : Char) (rest : Str) : Option Nat :=
  if c = ']' then
    match rest with
    | '(' :: rest2 => (firstCloseParen rest2).map (fun k => k + 3)
    | _ => none
  else none

/-- Match `.*?\]\(.*?\)` at the head of the list (the part of both patterns
after the opening bracket), returning the number of characters consumed.
The scan tries each `](` occurrence from the left and falls through to a
later one when no `)` is reachable, exactly as regex backtracking does;
a newline stops the lazy `.*?`. -/
def bracketBody : Str → Option Nat
  | [] => none
  | c :: rest =>
    match tryBracketAt c rest with
    | some n => some n
    | none => if c = '\n' then none else (bracketBody rest).map (· + 1)

/-- Match the image pattern `!\[.*?\]\(.*?\)` at the head of the list. -/
def matchImage : Str → Option Nat
  | '!' :: '[' :: rest => (bracketBody rest).map (· + 2)
  | _ => none

/-- Match the link pattern `\[.*?\]\(.*?\)` at the head of the list. -/
def matchLink : Str → Option Nat
  | '[' :: rest => (bracketBody rest).map (· + 1)
  | _ => none

/-- Model of `re.finditer`: scan left to right, emitting non-overlapping matches
as `(start, end)` pairs and resuming after each match.  The recursion is
driven by a fuel counter so that the definition is structural (and so
computes by kernel reduction); every step shortens the scanned string, so
fuel `length + 1` — as supplied by `finditer` — is never exhausted. -/
def finditerAux (m : Str → Option Nat) : Nat → Str → Nat → List (Nat × Nat)
  | 0, _, _ => []
  | _ + 1, [], _ => []
  | fuel + 1, c :: rest, pos =>
    match m (c :: rest) with
    | some n => (pos, pos + n) :: finditerAux m fuel (rest.drop (n - 1)) (pos + n)
    | none => finditerAux m fuel rest (pos + 1)

/-- All matches of `m` in `t`, as `(start, end)` pairs. -/
def finditer (m : Str → Option Nat) (t : Str) : List (Nat × Nat) :=
  finditerAux m (t.length + 1) t 0

/-- Model of `protected_ranges.sort(key=lambda x: x[0])`: Python's stable ascending
sort by start offset, realised by Mathlib's (stable) insertion sort. -/
def sortRanges (rs : List (Nat × Nat)) : List (Nat × Nat) :=
  rs.insertionSort (fun a b => a.1 ≤ b.1)

/-- The inner-range test of `_split_into_units` (verbatim disjunction). -/
def isInnerRange (r : Nat × Nat) (l : List (Nat × Nat)) : Bool :=
  l.any fun r2 =>
    (decide (r.1 > r2.1) && decide (r.2 < r2.2)) ||
    (decide (r.1 > r2.1) && decide (r.2 ≤ r2.2)) ||
    (decide (r.1 ≥ r2.1) && decide (r.2 < r2.2))

/-- The removal loop of `_split_into_units`: iterate over a copy of the
sorted range list while `remove`-ing (first occurrence) from the live
list every range that is inner w.r.t. the current live list. -/
def cleanupRanges (rs : List (Nat × Nat)) : List (Nat × Nat) :=
  rs.foldl (fun live r => if isInnerRange r live then live.erase r else live) rs

/-- The protected (image/link) ranges used by `_split_into_units`:
image matches, then link matches, stably sorted by start, inner ranges
removed. -/
def protectedRanges (text : Str) : List (Nat × Nat) :=
  cleanupRanges (sortRanges (finditer matchImage text ++ finditer matchLink text))

/-! ### `re.split` on literal separators

`_split_into_units` splits free text with
`re.split("(" + "|".join(map(re.escape, seps)) + ")", s)`: an alternation
of literal separators inside one capturing group, so the separators are
kept in the output and the alternation tries the separators in list
order at each position. -/

/-- The first separator (in list order) matching at this position. -/
def tryMatchSep (seps : List Str) (s : Str) : Option Str :=
  seps.find? (fun sep => sep.isPrefixOf s)

/-- Scanner for `re.split` with captured separators: `cur` is the current
segment, reversed.  (An empty separator would make the Python pattern
match zero-width; the configurations analysed here always use non-empty
separators, which the lemmas assume, so the `some []` fallthrough is
unreachable under those hypotheses.) -/
def splitAux (seps : List Str) : Nat → Str → Str → List Str
  | 0, _, cur => [cur.reverse]
  | _ + 1, [], cur => [cur.reverse]
  | fuel + 1, c :: rest, cur =>
    match tryMatchSep seps (c :: rest) with
    | some (s0 :: srest) =>
        cur.reverse :: (s0 :: srest) :: splitAux seps fuel (rest.drop srest.length) []
    | _ => splitAux seps fuel rest (c :: cur)

/-- Model of `re.split` with a capturing group of literal separators.  (As with
`finditerAux`, the fuel only makes the recursion structural; it is never
exhausted since every step shortens the string.) -/
def splitBySeps (seps : List Str) (s : Str) : List Str :=
  splitAux seps (s.length + 1) s []

/-- The free-text handling of `_split_into_units`: split on the configured
separators; any resulting unit longer than `chunk_size` is split again on
`"."` (the separators kept in both passes). -/
def processSegment (seps : List Str) (csize : Nat) (seg : Str) : List Str :=
  (splitBySeps seps seg).flatMap fun u =>
    if u.length ≤ csize then [u] else splitBySeps [['.']] u

/-- The main loop of `_split_into_units` over the protected ranges:
state is `(units, last_end)`.  A range starting at or before `last_end`
is skipped (`continue`), as is a range whose preceding free text strips
to empty; otherwise the free text is split, the protected span is
appended verbatim, and `last_end` advances to the range's end. -/
def walkRanges (seps : List Str) (csize : Nat) (text : Str)
    (ranges : List (Nat × Nat)) : List Str × Nat :=
  ranges.foldl
    (fun st r =>
      if r.1 ≤ st.2 then st
      else
        let pre := sub text st.2 r.1
        if pyStrip pre = [] then st
        else (st.1 ++ processSegment seps csize pre ++ [sub text r.1 r.2], r.2))
    ([], 0)

/-- Model of `BaseParser._split_into_units`. -/
def splitIntoUnits (seps : List Str) (csize : Nat) (text : Str) : List Str :=
  let st := walkRanges seps csize text (protectedRanges text)
  if st.2 < text.length then
    let post := text.drop st.2
    if pyStrip post = [] then st.1 else st.1 ++ processSegment seps csize post
  else st.1

/-! ### `BaseParser.chunk_text` -/

/-- The `Chunk` dataclass (its `images` list, populated only by the
separate multimodal pass, is not involved in the chunking claims). -/
structure Chunk where
  content : Str
  seq : Nat
  start : Nat
  endPos : Nat
  deriving DecidableEq, Repr

/-- A chunk instrumented with the unit buffer it was built from
(ghost data used to state unit-sharing properties; `chunkText` erases it). -/
structure IChunk where
  content : Str
  seq : Nat
  start : Nat
  endPos : Nat
  units : List Str
  deriving DecidableEq, Repr

/-- Forget the ghost unit buffer. -/
def IChunk.toChunk (ic : IChunk) : Chunk :=
  ⟨ic.content, ic.seq, ic.start, ic.endPos⟩

/-- The overlap-collection loop of `chunk_text`: walk the closed buffer
from its end (`reversed(current_chunk)`), taking whole units while the
running size stays within the target; returns the scanned units in scan
order together with the final size. -/
def collectOvAux (target : Nat) : List Str → Nat → List Str × Nat
  | [], size => ([], size)
  | u :: rest, size =>
    if size + u.length > target then ([], size)
    else
      let (t, s) := collectOvAux target rest (size + u.length)
      (u :: t, s)

/-- Overlap units (in buffer order) and their total size. -/
def collectOverlap (cur : List Str) (target : Nat) : List Str × Nat :=
  let (scanned, size) := collectOvAux target cur.reverse 0
  (scanned.reverse, size)

/-- A unit all of whose characters are single-character separators
(Python's `uu not in self.separators` check, negated and quantified). -/
def allSep (seps : List Str) (u : Str) : Bool :=
  u.all fun c => seps.contains [c]

/-- The separator-carry-over removal of `chunk_text`: drop the leading
run of all-separator units from the overlap, subtracting their lengths
from the running size. -/
def stripSepPrefix (seps : List Str) (ov : List Str) (size : Nat) :
    List Str × Nat :=
  (ov.dropWhile (allSep seps), size - (joinS (ov.takeWhile (allSep seps))).length)

/-- The fold state of `chunk_text`: emitted chunks, current unit buffer,
its running size, and the start offset of the chunk being built. -/
structure ChunkState where
  chunks : List IChunk
  cur : List Str
  size : Nat
  start : Nat
  deriving Repr

/-- One iteration of the `chunk_text` loop body for the next unit. -/
def stepUnit (seps : List Str) (csize cov : Nat) (st : ChunkState)
    (unit : Str) : ChunkState :=
  let usize := unit.length
  if st.size + usize > csize ∧ st.cur ≠ [] then
    let ctext := joinS st.cur
    let nc : IChunk := ⟨ctext, st.chunks.length, st.start,
      st.start + ctext.length, st.cur⟩
    if 0 < cov then
      let target := min cov ctext.length
      let co := collectOverlap st.cur target
      let ov := stripSepPrefix seps co.1 co.2
      ⟨st.chunks ++ [nc], ov.1 ++ [unit], ov.2 + usize,
        st.start + ctext.length - ov.2⟩
    else
      ⟨st.chunks ++ [nc], [unit], usize, st.start + ctext.length⟩
  else
    ⟨st.chunks, st.cur ++ [unit], st.size + usize, st.start⟩

/-- After the loop, a non-empty buffer is emitted as the final chunk. -/
def finalizeChunks (st : ChunkState) : List IChunk :=
  if st.cur ≠ [] then
    st.chunks ++ [⟨joinS st.cur, st.chunks.length, st.start,
      st.start + (joinS st.cur).length, st.cur⟩]
  else st.chunks

/-- Model of `BaseParser.chunk_text`, instrumented with each chunk's unit buffer. -/
def chunkTextI (seps : List Str) (csize cov : Nat) (text : Str) :
    List IChunk :=
  if text = [] then []
  else
    finalizeChunks
      ((splitIntoUnits seps csize text).foldl (stepUnit seps csize cov)
        ⟨[], [], 0, 0⟩)

/-- Model of `BaseParser.chunk_text`. -/
def chunkText (seps : List Str) (csize cov : Nat) (text : Str) :
    List Chunk :=
  (chunkTextI seps csize cov text).map IChunk.toChunk

/-- The chunk-count cap in `BaseParser.parse` (with multimodal disabled,
`parse` returns `chunk_text`'s output truncated to `max_chunks`). -/
def parseChunks (seps : List Str) (csize cov maxChunks : Nat)
    (text : Str) : List Chunk :=
  let chunks := chunkText seps csize cov text
  if chunks.length > maxChunks then chunks.take maxChunks else chunks

/-! ### The image enrichment coordinator
(`process_image_async` / `process_with_limit` / `process_multiple_images`)

The asynchronous stages (OCR via `run_in_executor` under a 30 s
`asyncio.wait_for`, captioning under its own 30 s `asyncio.wait_for`) are
embedded by an outcome oracle: for each image, whether each stage returned
a value, timed out, or raised.  The concurrency machinery (semaphore,
event loop) does not change results or their order: `asyncio.gather`
returns results positionally. -/

/-- Outcome of one awaited stage: a value, a 30 s timeout, or an error. -/
inductive StageOutcome where
  | ok (s : Str)
  | timeout
  | error
  deriving DecidableEq, Repr

/-- Per-image stage outcomes: the OCR stage, whether `image_to_base64`
produced data, and the caption stage. -/
structure ImgOutcome where
  ocr : StageOutcome
  b64ok : Bool
  caption : StageOutcome
  deriving DecidableEq, Repr

/-- Model of `BaseParser.process_image_async`: OCR first (timeout or error gives
`""`); then, only when a caption backend is configured, captioning, where
a failed base64 conversion, a timeout or an error leaves the caption
`""`. -/
def processImageAsync (capParser : Bool) (oc : ImgOutcome) (url : Str) :
    Str × Str × Str :=
  let ocrText := match oc.ocr with
    | .ok s => s
    | .timeout => []
    | .error => []
  let caption :=
    if capParser then
      if oc.b64ok then
        match oc.caption with
        | .ok s => s
        | .timeout => []
        | .error => []
      else []
    else []
  (ocrText, caption, url)

/-- Model of `BaseParser.process_with_limit`: any exception escaping the per-image
task body is caught and degraded to `("", "", url)`; `raised` abstracts
whether it raised.  (The `isinstance(result, Exception)` branch of
`process_multiple_images` substitutes the identical triple, so it is
covered by the same flag.) -/
def processWithLimit (capParser raised : Bool) (oc : ImgOutcome)
    (url : Str) : Str × Str × Str :=
  if raised then ([], [], url) else processImageAsync capParser oc url

/-- Model of `BaseParser.process_multiple_images`: empty input short-circuits to
`[]`; otherwise one task per `(image, url)` pair, gathered in input order. -/
def processMultipleImages {α : Type} (capParser : Bool)
    (inputs : List (α × Str)) (outcomes : Nat → Bool × ImgOutcome) :
    List (Str × Str × Str) :=
  if inputs.isEmpty then []
  else inputs.enum.map fun p =>
    processWithLimit capParser (outcomes p.1).1 (outcomes p.1).2 p.2.2

/-! ### Page reassembly (`Docx._collect_process_results` /
`_process_multiprocess_results`)

`_collect_process_results` extends `results` with one worker's
`page_lines` block per completed future, in completion order
(`as_completed`).  `_process_multiprocess_results` rewrites each line to
`(final_text, None, "", page_num)` — preserving its page number — and
then orders everything with `sorted(processed_lines, key=lambda x: x[3])`,
Python's stable ascending sort.  Only a line's text and its page number
take part in the ordering, so lines are modelled as such pairs. -/

/-- One collected line: `(text, page_num)` (elements 0 and 3 of the
Python tuple). -/
abbrev PageLine := Str × Nat

/-- Model of `sorted(processed_lines, key=lambda x: x[3])`: stable ascending sort
by page number (Mathlib's insertion sort is stable). -/
def sortByPage (ls : List PageLine) : List PageLine :=
  ls.insertionSort (fun a b => a.2 ≤ b.2)

/-- The reassembly: sort the collected lines by page number and keep
their texts (`self.all_lines = [(line[0], …)]`). -/
def reassembleLines (results : List PageLine) : List Str :=
  (sortByPage results).map (·.1)

/-! ### UTF-8 sanitization at the service boundary
(`server.to_valid_utf8_text` / `DocReaderServicer._convert_chunk_to_proto`)

A Python `str` can carry lone surrogates, which `List Char` cannot, so
these strings are modelled as lists of raw code points (`Nat`,
always < 0x110000 for a real `str`). -/

/-- A Python `str` at the service boundary: raw code points. -/
abbrev PyText := List Nat

/-- A code point in the surrogate range U+D800..U+DFFF (the class matched
by `_SURROGATE_RE`, and exactly the code points < 0x110000 that UTF-8
cannot encode). -/
def isSurrogateCp (c : Nat) : Bool := 0xd800 ≤ c && c ≤ 0xdfff

/-- A Unicode scalar value: what UTF-8 (and protobuf strings) accept. -/
def isUtf8Scalar (c : Nat) : Bool := c < 0x110000 && !isSurrogateCp c

/-- Model of `_SURROGATE_RE.sub("�", s)`. -/
def subSurrogates (s : PyText) : PyText :=
  s.map fun c => if isSurrogateCp c then 0xfffd else c

/-- Model of `s.encode("utf-8", errors="replace").decode("utf-8")`: on encoding,
`errors="replace"` substitutes `b"?"` (0x3f) for each unencodable code
point — for a `str`, exactly the surrogates — and every other code point
round-trips. -/
def encodeReplaceDecode (s : PyText) : PyText :=
  s.map fun c => if isSurrogateCp c then 0x3f else c

/-- Model of `server.to_valid_utf8_text` (`if not s: return ""`, surrogate
substitution, then the encode/decode round-trip). -/
def toValidUtf8Text (s : PyText) : PyText :=
  if s.isEmpty then [] else encodeReplaceDecode (subSurrogates s)

/-- The string fields of one image entry reaching
`_convert_chunk_to_proto` (numeric span fields omitted: the claim is
about string fields). -/
structure PyImageInfo where
  cosUrl : PyText
  caption : PyText
  ocrText : PyText
  originalUrl : PyText
  deriving Repr

/-- The fields of an internal chunk reaching `_convert_chunk_to_proto`. -/
structure PyChunkData where
  content : PyText
  images : List PyImageInfo
  deriving Repr

/-- Model of `DocReaderServicer._convert_chunk_to_proto`: every string field is
passed through `to_valid_utf8_text` (`_c`) on its way into the protobuf
message. -/
def convertChunkToProto (c : PyChunkData) : PyChunkData :=
  { content := toValidUtf8Text c.content
    images := c.images.map fun im =>
      { cosUrl := toValidUtf8Text im.cosUrl
        caption := toValidUtf8Text im.caption
        ocrText := toValidUtf8Text im.ocrText
        originalUrl := toValidUtf8Text im.originalUrl } }

/-! ### Specification predicates (used only to state properties) -/

/-- The relation claimed between consecutive chunks: a run of whole units
(`ov`) is a suffix of the earlier chunk's buffer and a prefix of the later
chunk's buffer, its total character length is bounded by `chunk_overlap`,
it accounts exactly for the positional overlap, it is empty when
`chunk_overlap = 0`, and starts are non-decreasing. -/
def ChunkPair (cov : Nat) (c c' : IChunk) : Prop :=
  ∃ ov : List Str,
    ov <:+ c.units ∧ ov <+: c'.units ∧
    (joinS ov).length ≤ cov ∧
    c'.start + (joinS ov).length = c.endPos ∧
    (cov = 0 → ov = []) ∧
    c.start ≤ c'.start

/-- The invariant of the `chunk_text` loop state: the running size is the
buffer's length, emitted chunks have dense sequence numbers and
consistent offsets, consecutive chunks are `ChunkPair`-related, and the
last emitted chunk is `ChunkPair`-related to the chunk the current buffer
would produce. -/
def StateInv (cov : Nat) (st : ChunkState) : Prop :=
  st.size = (joinS st.cur).length ∧
  (∀ i (h : i < st.chunks.length), (st.chunks.get ⟨i, h⟩).seq = i) ∧
  (∀ c ∈ st.chunks,
    c.endPos = c.start + c.content.length ∧ c.content = joinS c.units) ∧
  List.Chain' (ChunkPair cov) st.chunks ∧
  (∀ c, st.chunks.getLast? = some c →
    ChunkPair cov c ⟨joinS st.cur, st.chunks.length, st.start,
      st.start + (joinS st.cur).length, st.cur⟩)

/-- The invariant of an emitted chunk list: dense 0-based sequence
numbers, `end = start + len(content)`, contents are their unit buffers
joined, and consecutive chunks are `ChunkPair`-related. -/
def ChunksInv (cov : Nat) (L : List IChunk) : Prop :=
  (∀ i (h : i < L.length), (L.get ⟨i, h⟩).seq = i) ∧
  (∀ c ∈ L, c.endPos = c.start + c.content.length ∧ c.content = joinS c.units) ∧
  List.Chain' (ChunkPair cov) L

end DocReader

namespace DocReader

/-! ## Basic lemmas -/

theorem joinS_append (a b : List Str) : joinS (a ++ b) = joinS a ++ joinS b := by
  induction a with
  | nil => rfl
  | cons u us ih => simp [joinS, ih]

theorem joinS_flatMap (l : List Str) (f : Str → List Str)
    (hf : ∀ u ∈ l, joinS (f u) = u) : joinS (l.flatMap f) = joinS l := by
  induction l with
  | nil => rfl
  | cons u us ih =>
    simp only [List.flatMap_cons, joinS_append, joinS]
    rw [hf u (by simp), ih (fun v hv => hf v (by simp [hv]))]

/-! ## Claim theorems: concrete chunking scenario (C1) -/

/-- C1 counterexample: with chunk_size 9 and chunk_overlap 4, the text
"AAAA\n\nBBBB\n\nCCCC" is NOT chunked into the two claimed chunks
("AAAA\n\nBBBB", 0, 0, 10) and ("BBBB\n\nCCCC", 1, 6, 16). -/
theorem c1_counterexample :
    ¬(chunkText ["\n\n".data] 9 4 "AAAA\n\nBBBB\n\nCCCC".data =
      [⟨"AAAA\n\nBBBB".data, 0, 0, 10⟩, ⟨"BBBB\n\nCCCC".data, 1, 6, 16⟩]) := by
  decide

/-- C1 (amended): the unit list is ["AAAA","\n\n","BBBB","\n\n","CCCC"]
as claimed, but `chunk_text` produces three chunks: seq 0 "AAAA\n\n"
(start 0, end 6), seq 1 "\n\nBBBB\n\n" (start 4, end 12), seq 2
"\n\nCCCC" (start 10, end 16) — the closing condition fires as soon as
adding a unit would exceed chunk_size, so "BBBB" starts a new chunk, and
the carried overlap is the separator unit "\n\n" (the separator-dropping
step does not remove it, because it compares single characters against
the two-character separator string). -/
theorem c1_amended :
    splitIntoUnits ["\n\n".data] 9 "AAAA\n\nBBBB\n\nCCCC".data =
      ["AAAA".data, "\n\n".data, "BBBB".data, "\n\n".data, "CCCC".data] ∧
    chunkText ["\n\n".data] 9 4 "AAAA\n\nBBBB\n\nCCCC".data =
      [⟨"AAAA\n\n".data, 0, 0, 6⟩, ⟨"\n\nBBBB\n\n".data, 1, 4, 12⟩,
        ⟨"\n\nCCCC".data, 2, 10, 16⟩] := by
  exact ⟨by decide, by decide⟩

/-! ## Claim theorems: protected spans (C3) -/

/-- C3: a markdown image span at position 0 is NOT protected: the guard
`if start <= last_end: continue` skips a protected range whose start
equals `last_end` (initially 0), so the span "![a](b.c)" — longer than
chunk_size 5 — falls into the free-text path and is subdivided at its
dot into ["![a](b", ".", "c)"]; no unit equals the full span.  This
contradicts the function's stated purpose of keeping image/link
structures intact (the guard should only skip ranges overlapping already
consumed text, i.e. `start < last_end`). -/
theorem c3_protected_span_split :
    splitIntoUnits ["\n\n".data] 5 "![a](b.c)".data =
      ["![a](b".data, ".".data, "c)".data] ∧
    "![a](b.c)".data ∉ splitIntoUnits ["\n\n".data] 5 "![a](b.c)".data := by
  exact ⟨by decide, by decide⟩

/-! ## Claim theorems: chunk cap in parse (C6) -/

/-- C6: whenever `chunk_text` produces more than `max_chunks` chunks,
`BaseParser.parse` truncates the list to exactly its first `max_chunks`
chunks, silently. -/
theorem c6_parse_caps_chunks (seps : List Str) (csize cov maxChunks : Nat)
    (text : Str) (h : (chunkText seps csize cov text).length > maxChunks) :
    parseChunks seps csize cov maxChunks text =
      (chunkText seps csize cov text).take maxChunks := by
  simp only [parseChunks]
  rw [if_pos h]

/-- C6 witness: "A\n\nB\n\nC" with chunk_size 1 yields 5 chunks, and with
max_chunks 2 the parse result is their 2-element prefix. -/
theorem c6_parse_caps_chunks_witness :
    (chunkText ["\n\n".data] 1 0 "A\n\nB\n\nC".data).length > 2 ∧
    parseChunks ["\n\n".data] 1 0 2 "A\n\nB\n\nC".data =
      (chunkText ["\n\n".data] 1 0 "A\n\nB\n\nC".data).take 2 :=
  ⟨by decide, c6_parse_caps_chunks ["\n\n".data] 1 0 2 "A\n\nB\n\nC".data (by decide)⟩

/-! ## Claim theorems: image enrichment degrades, never shrinks (C7) -/

/-- C7: for a non-empty batch, `process_multiple_images` returns exactly
one (ocr_text, caption, url) triple per input pair, in order; a raised
task, or a timeout or error of the OCR stage, leaves that image's OCR
text empty, and a timeout or error of the caption stage (or a failed
base64 conversion) leaves that image's caption empty — the batch is
never aborted.  Stage outcomes (including the 30-second timeouts) are
supplied by the `outcomes` oracle. -/
theorem c7_enrichment_degrades {α : Type} (capParser : Bool)
    (inputs : List (α × Str)) (outcomes : Nat → Bool × ImgOutcome)
    (hne : inputs ≠ []) :
    (processMultipleImages capParser inputs outcomes).length = inputs.length ∧
    ∀ i (hi : i < inputs.length), ∃ r : Str × Str × Str,
      (processMultipleImages capParser inputs outcomes).get? i = some r ∧
      r.2.2 = (inputs.get ⟨i, hi⟩).2 ∧
      ((outcomes i).1 = true ∨ (outcomes i).2.ocr = .timeout ∨
        (outcomes i).2.ocr = .error → r.1 = []) ∧
      ((outcomes i).2.caption = .timeout ∨ (outcomes i).2.caption = .error ∨
        (outcomes i).2.b64ok = false → r.2.1 = []) := by
  have hemp : inputs.isEmpty = false := by
    cases inputs with
    | nil => exact absurd rfl hne
    | cons a t => rfl
  constructor
  · simp [processMultipleImages, hemp]
  · intro i hi
    refine ⟨processWithLimit capParser (outcomes i).1 (outcomes i).2
      (inputs.get ⟨i, hi⟩).2, ?_, ?_, ?_, ?_⟩
    · simp only [processMultipleImages, hemp, Bool.false_eq_true, if_false]
      rw [List.get?_map, List.get?_enum, List.get?_eq_get hi]
      rfl
    · rcases h1 : (outcomes i).1 with _ | _ <;>
        simp [processWithLimit, processImageAsync, h1]
    · intro h
      rcases h with h | h | h <;>
        rcases h1 : (outcomes i).1 with _ | _ <;>
        simp_all [processWithLimit, processImageAsync]
    · intro h
      rcases h1 : (outcomes i).1 with _ | _
      · rcases h with h | h | h <;>
          rcases hcp : capParser with _ | _ <;>
          rcases hb : (outcomes i).2.b64ok with _ | _ <;>
          simp_all [processWithLimit, processImageAsync]
      · simp [processWithLimit, h1]

/-- C7 witness: three images where image 2's OCR stage times out — three
results come back, the second with empty OCR text. -/
theorem c7_enrichment_degrades_witness :
    ([((), "u1".data), ((), "u2".data), ((), "u3".data)] : List (Unit × Str)) ≠ [] ∧
    (processMultipleImages true
        [((), "u1".data), ((), "u2".data), ((), "u3".data)]
        (fun i => if i = 1 then (false, ⟨.timeout, true, .ok "cap".data⟩)
          else (false, ⟨.ok "text".data, true, .ok "cap".data⟩))).length = 3 :=
  ⟨by decide,
    (c7_enrichment_degrades true
      [((), "u1".data), ((), "u2".data), ((), "u3".data)]
      (fun i => if i = 1 then (false, ⟨.timeout, true, .ok "cap".data⟩)
        else (false, ⟨.ok "text".data, true, .ok "cap".data⟩))
      (by decide)).1⟩

/-! ## Splitter round-trip lemmas (towards C2) -/

theorem splitAux_join (seps : List Str) (hseps : ∀ s ∈ seps, s ≠ [])
    (fuel : Nat) :
    ∀ (s cur : Str), s.length < fuel →
      joinS (splitAux seps fuel s cur) = cur.reverse ++ s := by
  induction fuel with
  | zero => intro s cur h; omega
  | succ fuel ih =>
    intro s cur h
    cases s with
    | nil => simp [splitAux, joinS]
    | cons c rest =>
      cases htm : tryMatchSep seps (c :: rest) with
      | none =>
        simp only [splitAux, htm]
        rw [ih rest (c :: cur) (by simp at h ⊢; omega)]
        simp
      | some sep =>
        rw [tryMatchSep] at htm
        have hmem : sep ∈ seps := List.mem_of_find?_eq_some htm
        have hpre : sep <+: (c :: rest) := by
          rw [← List.isPrefixOf_iff_prefix]
          have hp := List.find?_some htm
          simpa using hp
        cases sep with
        | nil => exact absurd rfl (hseps [] hmem)
        | cons s0 srest =>
          simp only [splitAux, tryMatchSep, htm, joinS]
          rw [ih (rest.drop srest.length) [] (by simp at h ⊢; omega)]
          obtain ⟨t, ht⟩ := hpre
          have hc : c = s0 := (List.cons.inj ht.symm).1
          have hrest : rest = srest ++ t := (List.cons.inj ht.symm).2
          subst hc
          have hdrop : rest.drop srest.length = t := by
            rw [hrest, List.drop_left srest t]
          rw [hdrop]
          simp [hrest, List.append_assoc]

theorem splitBySeps_join (seps : List Str) (hseps : ∀ s ∈ seps, s ≠ [])
    (s : Str) : joinS (splitBySeps seps s) = s := by
  have := splitAux_join seps hseps (s.length + 1) s [] (by omega)
  simpa [splitBySeps] using this

theorem processSegment_join (seps : List Str) (hseps : ∀ s ∈ seps, s ≠ [])
    (csize : Nat) (seg : Str) :
    joinS (processSegment seps csize seg) = seg := by
  unfold processSegment
  rw [joinS_flatMap]
  · exact splitBySeps_join seps hseps seg
  · intro u _
    by_cases hu : u.length ≤ csize
    · simp [hu, joinS]
    · simp only [hu, if_false]
      exact splitBySeps_join [['.']] (by intro s hs; simp at hs; simp [hs]) u

/-! ## Match-length bounds (the ranges the splitter walks are in-bounds) -/

theorem firstCloseParen_lt (s : Str) (k : Nat) (h : firstCloseParen s = some k) :
    k < s.length := by
  induction s generalizing k with
  | nil => simp [firstCloseParen] at h
  | cons c rest ih =>
    simp only [firstCloseParen] at h
    by_cases hc : c = ')'
    · simp [hc] at h
      simp
      omega
    · simp only [hc, if_false] at h
      by_cases hn : c = '\n'
      · simp [hn] at h
      · simp only [hn, if_false, Option.map_eq_some'] at h
        obtain ⟨k', hk', rfl⟩ := h
        have := ih k' hk'
        simp
        omega

theorem tryBracketAt_bounds (c : Char) (rest : Str) (m : Nat)
    (h : tryBracketAt c rest = some m) : 3 ≤ m ∧ m ≤ rest.length + 1 := by
  unfold tryBracketAt at h
  by_cases hc : c = ']'
  · rw [if_pos hc] at h
    split at h
    · rename_i rest2
      simp only [Option.map_eq_some'] at h
      obtain ⟨k, hk, rfl⟩ := h
      have := firstCloseParen_lt rest2 k hk
      simp
      omega
    · cases h
  · rw [if_neg hc] at h
    cases h

theorem bracketBody_bounds (s : Str) (n : Nat) (h : bracketBody s = some n) :
    1 ≤ n ∧ n ≤ s.length := by
  induction s generalizing n with
  | nil => simp [bracketBody] at h
  | cons c rest ih =>
    rw [bracketBody] at h
    cases htry : tryBracketAt c rest with
    | none =>
      rw [htry] at h
      by_cases hn : c = '\n'
      · simp [hn] at h
      · simp only [hn, if_false, Option.map_eq_some'] at h
        obtain ⟨n', hn', rfl⟩ := h
        have := ih n' hn'
        simp
        omega
    | some m =>
      rw [htry] at h
      have hmn : m = n := by simpa using h
      subst hmn
      have := tryBracketAt_bounds c rest m htry
      simp
      omega

theorem matchImage_bounds (s : Str) (n : Nat) (h : matchImage s = some n) :
    1 ≤ n ∧ n ≤ s.length := by
  rw [matchImage.eq_def] at h
  split at h
  · rename_i rest
    simp only [Option.map_eq_some'] at h
    obtain ⟨b, hb, rfl⟩ := h
    have := bracketBody_bounds rest b hb
    simp
    omega
  · cases h

theorem matchLink_bounds (s : Str) (n : Nat) (h : matchLink s = some n) :
    1 ≤ n ∧ n ≤ s.length := by
  rw [matchLink.eq_def] at h
  split at h
  · rename_i rest
    simp only [Option.map_eq_some'] at h
    obtain ⟨b, hb, rfl⟩ := h
    have := bracketBody_bounds rest b hb
    simp
    omega
  · cases h

theorem finditerAux_bounds (m : Str → Option Nat)
    (hm : ∀ s n, m s = some n → 1 ≤ n ∧ n ≤ s.length) (fuel : Nat) :
    ∀ (s : Str) (pos : Nat) (r : Nat × Nat), r ∈ finditerAux m fuel s pos →
      pos ≤ r.1 ∧ r.1 < r.2 ∧ r.2 ≤ pos + s.length := by
  induction fuel with
  | zero => intro s pos r hr; simp [finditerAux] at hr
  | succ fuel ih =>
    intro s pos r hr
    cases s with
    | nil => simp [finditerAux] at hr
    | cons c rest =>
      rw [finditerAux] at hr
      cases hm' : m (c :: rest) with
      | none =>
        rw [hm'] at hr
        have := ih rest (pos + 1) r hr
        simp at this ⊢
        omega
      | some n =>
        rw [hm'] at hr
        obtain ⟨h1, h2⟩ := hm (c :: rest) n hm'
        simp only [List.mem_cons] at hr
        rcases hr with rfl | hr
        · simp at h2 ⊢
          omega
        · have := ih (rest.drop (n - 1)) (pos + n) r hr
          simp [List.length_drop] at this ⊢
          omega

theorem cleanupRanges_subset (rs : List (Nat × Nat)) : cleanupRanges rs ⊆ rs := by
  unfold cleanupRanges
  suffices h : ∀ (l acc : List (Nat × Nat)), acc ⊆ rs →
      l.foldl (fun live r => if isInnerRange r live then live.erase r else live)
        acc ⊆ rs by
    exact h rs rs (fun _ hx => hx)
  intro l
  induction l with
  | nil => intro acc hacc; exact hacc
  | cons r rest ih =>
    intro acc hacc
    simp only [List.foldl_cons]
    by_cases hin : isInnerRange r acc
    · simp only [hin, if_true]
      exact ih (acc.erase r) (fun x hx => hacc (List.erase_subset r acc hx))
    · simp only [hin, if_false]
      exact ih acc hacc

theorem protectedRanges_bounds (text : Str) (r : Nat × Nat)
    (hr : r ∈ protectedRanges text) : r.1 < r.2 ∧ r.2 ≤ text.length := by
  have h1 : r ∈ sortRanges (finditer matchImage text ++ finditer matchLink text) :=
    cleanupRanges_subset _ hr
  have h2 : r ∈ finditer matchImage text ++ finditer matchLink text :=
    (List.perm_insertionSort _ _).subset h1
  rw [List.mem_append] at h2
  rcases h2 with h2 | h2
  · have := finditerAux_bounds matchImage matchImage_bounds _ text 0 r h2
    omega
  · have := finditerAux_bounds matchLink matchLink_bounds _ text 0 r h2
    omega

/-! ## The walk tiles a prefix of the text -/

theorem take_append_sub (t : Str) (a b : Nat) (hab : a ≤ b) :
    t.take a ++ sub t a b = t.take b := by
  unfold sub
  rw [← List.take_add]
  congr 1
  omega

theorem walkRanges_join (seps : List Str) (hseps : ∀ s ∈ seps, s ≠ [])
    (csize : Nat) (text : Str) (ranges : List (Nat × Nat))
    (hb : ∀ r ∈ ranges, r.1 < r.2 ∧ r.2 ≤ text.length) :
    joinS (walkRanges seps csize text ranges).1 =
      text.take (walkRanges seps csize text ranges).2 ∧
    (walkRanges seps csize text ranges).2 ≤ text.length := by
  unfold walkRanges
  suffices h : ∀ (rs : List (Nat × Nat)) (st : List Str × Nat),
      (∀ r ∈ rs, r.1 < r.2 ∧ r.2 ≤ text.length) →
      joinS st.1 = text.take st.2 → st.2 ≤ text.length →
      joinS (rs.foldl (fun st r =>
        if r.1 ≤ st.2 then st
        else
          let pre := sub text st.2 r.1
          if pyStrip pre = [] then st
          else (st.1 ++ processSegment seps csize pre ++ [sub text r.1 r.2],
            r.2)) st).1 =
        text.take (rs.foldl (fun st r =>
          if r.1 ≤ st.2 then st
          else
            let pre := sub text st.2 r.1
            if pyStrip pre = [] then st
            else (st.1 ++ processSegment seps csize pre ++ [sub text r.1 r.2],
              r.2)) st).2 ∧
        (rs.foldl (fun st r =>
          if r.1 ≤ st.2 then st
          else
            let pre := sub text st.2 r.1
            if pyStrip pre = [] then st
            else (st.1 ++ processSegment seps csize pre ++ [sub text r.1 r.2],
              r.2)) st).2 ≤ text.length by
    exact h ranges ([], 0) hb (by simp [joinS]) (by omega)
  intro rs
  induction rs with
  | nil => intro st _ h1 h2; exact ⟨h1, h2⟩
  | cons r rest ih =>
    intro st hbr h1 h2
    simp only [List.foldl_cons]
    by_cases hle : r.1 ≤ st.2
    · simp only [hle, if_true]
      exact ih st (fun x hx => hbr x (by simp [hx])) h1 h2
    · simp only [hle, if_false]
      by_cases hstrip : pyStrip (sub text st.2 r.1) = []
      · simp only [hstrip, if_true]
        exact ih st (fun x hx => hbr x (by simp [hx])) h1 h2
      · simp only [hstrip, if_false]
        obtain ⟨hre, hrlen⟩ := hbr r (by simp)
        apply ih
        · exact fun x hx => hbr x (by simp [hx])
        · show joinS (st.1 ++ processSegment seps csize (sub text st.2 r.1) ++
            [sub text r.1 r.2]) = text.take r.2
          rw [joinS_append, joinS_append, h1,
            processSegment_join seps hseps csize, joinS]
          rw [joinS, List.append_nil]
          rw [take_append_sub text st.2 r.1 (by omega)]
          rw [take_append_sub text r.1 r.2 (by omega)]
        · exact hrlen

/-! ## Claim theorems: splitter round-trip (C2) -/

/-- C2 counterexample: for the one-character whitespace text " " (with the
separator list ["\n\n"] and chunk_size 9) the splitter returns no units
at all, so the concatenation of the units is "" and not the original
text. -/
theorem c2_counterexample :
    joinS (splitIntoUnits ["\n\n".data] 9 " ".data) ≠ " ".data := by
  decide

/-- C2 (amended): for every text and every list of non-empty separators,
the concatenation of the units is a prefix of the text —
`text.take last_end` extended by the trailing residue when that residue
survives the strip test — and it equals the whole text whenever the
trailing residue after the last consumed protected range is absent or
contains a non-whitespace character.  (The residue is dropped exactly
when it is non-empty and strips to empty, which is what the
counterexample exercises.) -/
theorem c2_split_roundtrip (seps : List Str) (csize : Nat) (text : Str)
    (hseps : ∀ s ∈ seps, s ≠ [])
    (hres : text.length ≤ (walkRanges seps csize text (protectedRanges text)).2 ∨
      pyStrip (text.drop (walkRanges seps csize text (protectedRanges text)).2) ≠ []) :
    joinS (splitIntoUnits seps csize text) = text := by
  obtain ⟨h1, h2⟩ := walkRanges_join seps hseps csize text (protectedRanges text)
    (fun r hr => protectedRanges_bounds text r hr)
  unfold splitIntoUnits
  by_cases hlt : (walkRanges seps csize text (protectedRanges text)).2 < text.length
  · simp only [hlt, if_true]
    rcases hres with hres | hres
    · omega
    · simp only [hres, if_false]
      rw [joinS_append, h1, processSegment_join seps hseps csize]
      exact List.take_append_drop _ text
  · simp only [hlt, if_false]
    have : (walkRanges seps csize text (protectedRanges text)).2 = text.length := by
      omega
    rw [h1, this, List.take_length]

/-- C2 witness: a text with a protected span and a non-whitespace trailing
residue round-trips exactly. -/
theorem c2_split_roundtrip_witness :
    joinS (splitIntoUnits ["\n\n".data] 100 "x ![a](u) y".data) =
      "x ![a](u) y".data :=
  c2_split_roundtrip ["\n\n".data] 100 "x ![a](u) y".data
    (by intro s hs; simp at hs; simp [hs]) (by decide)

/-! ## Claim theorems: whitespace-only text (C10) -/

theorem matchImage_eq_none_of_ne (c : Char) (l : Str) (h : c ≠ '!') :
    matchImage (c :: l) = none := by
  rw [matchImage.eq_def]
  split
  · rename_i heq
    exact absurd (List.cons.inj heq).1 h
  · rfl

theorem matchLink_eq_none_of_ne (c : Char) (l : Str) (h : c ≠ '[') :
    matchLink (c :: l) = none := by
  rw [matchLink.eq_def]
  split
  · rename_i heq
    exact absurd (List.cons.inj heq).1 h
  · rfl

theorem finditerAux_eq_nil (m : Str → Option Nat) (fuel : Nat) :
    ∀ (s : Str) (pos : Nat), (∀ t, t <:+ s → m t = none) →
      finditerAux m fuel s pos = [] := by
  induction fuel with
  | zero => intro s pos _; rfl
  | succ fuel ih =>
    intro s pos hm
    cases s with
    | nil => rfl
    | cons c rest =>
      simp only [finditerAux, hm (c :: rest) (List.suffix_refl _)]
      exact ih rest (pos + 1) (fun t ht => ht.trans (List.suffix_cons c rest) |> hm t)

theorem protectedRanges_eq_nil_of_space (text : Str)
    (hsp : ∀ c ∈ text, pyIsSpace c = true) : protectedRanges text = [] := by
  have himg : finditer matchImage text = [] := by
    apply finditerAux_eq_nil
    intro t ht
    cases t with
    | nil => rfl
    | cons c l =>
      apply matchImage_eq_none_of_ne
      intro hc
      have := hsp c (ht.subset (List.mem_cons_self c l))
      rw [hc] at this
      exact absurd this (by decide)
  have hlink : finditer matchLink text = [] := by
    apply finditerAux_eq_nil
    intro t ht
    cases t with
    | nil => rfl
    | cons c l =>
      apply matchLink_eq_none_of_ne
      intro hc
      have := hsp c (ht.subset (List.mem_cons_self c l))
      rw [hc] at this
      exact absurd this (by decide)
  simp [protectedRanges, himg, hlink, sortRanges, cleanupRanges]

theorem pyStrip_eq_nil_of_space (s : Str) (hsp : ∀ c ∈ s, pyIsSpace c = true) :
    pyStrip s = [] := by
  have h1 : s.dropWhile pyIsSpace = [] := List.dropWhile_eq_nil_iff.mpr hsp
  simp [pyStrip, h1]

/-- C10: a non-empty text all of whose characters are whitespace (so in
particular it contains no markdown image/link span) produces zero chunks:
the splitter drops the whole text as a strips-to-empty segment, so
`chunk_text` never builds a buffer. -/
theorem c10_whitespace_only_yields_no_chunks (seps : List Str)
    (csize cov : Nat) (text : Str) (hne : text ≠ [])
    (hsp : ∀ c ∈ text, pyIsSpace c = true) :
    chunkText seps csize cov text = [] := by
  have hranges := protectedRanges_eq_nil_of_space text hsp
  have hstrip := pyStrip_eq_nil_of_space text hsp
  have hlen : 0 < text.length := List.length_pos.mpr hne
  have hunits : splitIntoUnits seps csize text = [] := by
    simp only [splitIntoUnits, hranges, walkRanges, List.foldl_nil]
    simp [hlen, List.drop_zero, hstrip]
  simp [chunkText, chunkTextI, hne, hunits, finalizeChunks]

/-- C10 witness: the three-character whitespace text " \n\t" yields zero
chunks under the default-style configuration. -/
theorem c10_whitespace_only_witness :
    chunkText ["\n\n".data] 9 4 " \n\t".data = [] :=
  c10_whitespace_only_yields_no_chunks ["\n\n".data] 9 4 " \n\t".data
    (by decide) (by decide)

/-! ## Claim theorems: UTF-8 sanitization (C9) -/

theorem toValidUtf8Text_spec (s : PyText) (h : ∀ c ∈ s, c < 0x110000) :
    toValidUtf8Text s =
      s.map (fun c => if isSurrogateCp c then 0xfffd else c) ∧
    ∀ c ∈ toValidUtf8Text s, isUtf8Scalar c = true := by
  have hmap : toValidUtf8Text s =
      s.map (fun c => if isSurrogateCp c then 0xfffd else c) := by
    rcases hs : s.isEmpty with _ | _
    · simp only [toValidUtf8Text, hs, Bool.false_eq_true, if_false,
        encodeReplaceDecode, subSurrogates, List.map_map]
      apply List.map_congr_left
      intro c _
      simp only [Function.comp]
      rcases hc : isSurrogateCp c with _ | _
      · simp [hc]
      · simp [hc, isSurrogateCp]
    · rw [List.isEmpty_iff] at hs
      subst hs
      rfl
  refine ⟨hmap, ?_⟩
  intro c hc
  rw [hmap] at hc
  obtain ⟨a, ha, rfl⟩ := List.mem_map.mp hc
  rcases hsa : isSurrogateCp a with _ | _
  · simp only [hsa, Bool.false_eq_true, if_false]
    have := h a ha
    simp only [isUtf8Scalar, hsa]
    simp [this]
  · simp [isUtf8Scalar, isSurrogateCp]

/-- C9: `_convert_chunk_to_proto` passes every string field (content and,
for each image, url, caption, ocr_text, original_url) through
`to_valid_utf8_text`, which maps every surrogate code point to U+FFFD
and leaves all other code points unchanged; so every string field that
crosses the boundary consists solely of Unicode scalar values and
re-encodes to UTF-8 without error. -/
theorem c9_proto_fields_valid_utf8 (ch : PyChunkData)
    (hc : ∀ c ∈ ch.content, c < 0x110000)
    (hi : ∀ im ∈ ch.images,
      (∀ c ∈ im.cosUrl, c < 0x110000) ∧ (∀ c ∈ im.caption, c < 0x110000) ∧
      (∀ c ∈ im.ocrText, c < 0x110000) ∧ (∀ c ∈ im.originalUrl, c < 0x110000)) :
    (convertChunkToProto ch).content =
      ch.content.map (fun c => if isSurrogateCp c then 0xfffd else c) ∧
    (∀ c ∈ (convertChunkToProto ch).content, isUtf8Scalar c = true) ∧
    ∀ im ∈ (convertChunkToProto ch).images,
      (∀ c ∈ im.cosUrl, isUtf8Scalar c = true) ∧
      (∀ c ∈ im.caption, isUtf8Scalar c = true) ∧
      (∀ c ∈ im.ocrText, isUtf8Scalar c = true) ∧
      (∀ c ∈ im.originalUrl, isUtf8Scalar c = true) := by
  refine ⟨(toValidUtf8Text_spec ch.content hc).1,
    (toValidUtf8Text_spec ch.content hc).2, ?_⟩
  intro im him
  simp only [convertChunkToProto, List.mem_map] at him
  obtain ⟨im0, him0, rfl⟩ := him
  obtain ⟨h1, h2, h3, h4⟩ := hi im0 him0
  exact ⟨(toValidUtf8Text_spec im0.cosUrl h1).2,
    (toValidUtf8Text_spec im0.caption h2).2,
    (toValidUtf8Text_spec im0.ocrText h3).2,
    (toValidUtf8Text_spec im0.originalUrl h4).2⟩

/-! ## The chunk assembler invariant (towards C4 and C5) -/

theorem joinS_length_reverse (us : List Str) :
    (joinS us.reverse).length = (joinS us).length := by
  induction us with
  | nil => rfl
  | cons u rest ih =>
    simp [joinS, joinS_append, List.length_append, ih]
    omega

theorem collectOvAux_spec (target : Nat) :
    ∀ (us : List Str) (size : Nat),
      (collectOvAux target us size).1 <+: us ∧
      (collectOvAux target us size).2 =
        size + (joinS (collectOvAux target us size).1).length ∧
      (size ≤ target → (collectOvAux target us size).2 ≤ target) := by
  intro us
  induction us with
  | nil =>
    intro size
    exact ⟨ List.nil_prefix, by simp [collectOvAux, joinS], fun hs => hs⟩
  | cons u rest ih =>
    intro size
    by_cases hgt : size + u.length > target
    · simp only [collectOvAux, hgt, if_true]
      exact ⟨ List.nil_prefix, by simp [joinS], fun hs => hs⟩
    · obtain ⟨h1, h2, h3⟩ := ih (size + u.length)
      rcases hrec : collectOvAux target rest (size + u.length) with ⟨t, s⟩
      rw [hrec] at h1 h2 h3
      dsimp only at h1 h2 h3
      simp only [collectOvAux, hgt, if_false, hrec]
      refine ⟨List.cons_prefix_cons.mpr ⟨rfl, h1⟩, ?_, ?_⟩
      · simp [joinS, h2]
        omega
      · intro hs
        exact h3 (by omega)

theorem collectOverlap_spec (cur : List Str) (target : Nat) :
    (collectOverlap cur target).1 <:+ cur ∧
    (collectOverlap cur target).2 =
      (joinS (collectOverlap cur target).1).length ∧
    (collectOverlap cur target).2 ≤ target := by
  obtain ⟨h1, h2, h3⟩ := collectOvAux_spec target cur.reverse 0
  rcases hrec : collectOvAux target cur.reverse 0 with ⟨scanned, size⟩
  rw [hrec] at h1 h2 h3
  dsimp only at h1 h2 h3
  simp only [collectOverlap, hrec]
  refine ⟨?_, ?_, h3 (by omega)⟩
  · rw [← List.reverse_prefix]
    simpa using h1
  · rw [h2, joinS_length_reverse]
    omega

theorem stripSepPrefix_spec (seps : List Str) (ov : List Str) (size : Nat)
    (hsz : size = (joinS ov).length) :
    (stripSepPrefix seps ov size).1 <:+ ov ∧
    (stripSepPrefix seps ov size).2 =
      (joinS (stripSepPrefix seps ov size).1).length ∧
    (stripSepPrefix seps ov size).2 ≤ size := by
  have hsplit : joinS ov =
      joinS (ov.takeWhile (allSep seps)) ++ joinS (ov.dropWhile (allSep seps)) := by
    rw [← joinS_append, List.takeWhile_append_dropWhile]
  have hlen : (joinS ov).length =
      (joinS (ov.takeWhile (allSep seps))).length +
        (joinS (ov.dropWhile (allSep seps))).length := by
    rw [hsplit, List.length_append]
  exact ⟨List.dropWhile_suffix _, by simp only [stripSepPrefix]; omega,
    by simp only [stripSepPrefix]; omega⟩

theorem chunksInv_append_virtual (cov : Nat) (st : ChunkState)
    (h : StateInv cov st) :
    ChunksInv cov (st.chunks ++ [⟨joinS st.cur, st.chunks.length, st.start,
      st.start + (joinS st.cur).length, st.cur⟩]) := by
  obtain ⟨hsize, hseq, hfields, hchain, hlink⟩ := h
  unfold ChunksInv
  refine ⟨?_, ?_, ?_⟩
  · intro i hi
    simp only [List.length_append, List.length_singleton] at hi
    rcases Nat.lt_or_ge i st.chunks.length with hlt | hge
    · simp only [List.get_eq_getElem, List.getElem_append_left hlt]
      have := hseq i hlt
      simpa using this
    · have hieq : i = st.chunks.length := by omega
      subst hieq
      simp
  · intro c hc
    rw [List.mem_append] at hc
    rcases hc with hc | hc
    · exact hfields c hc
    · simp only [List.mem_singleton] at hc
      subst hc
      exact ⟨rfl, rfl⟩
  · apply List.Chain'.append hchain (List.chain'_singleton _)
    intro x hx y hy
    simp only [List.head?_cons, Option.mem_def, Option.some.injEq] at hy
    subst hy
    exact hlink x hx

theorem stepUnit_inv (seps : List Str) (csize cov : Nat) (st : ChunkState)
    (unit : Str) (h : StateInv cov st) :
    StateInv cov (stepUnit seps csize cov st unit) := by
  obtain ⟨hvseq, hvfields, hvchain⟩ := chunksInv_append_virtual cov st h
  obtain ⟨hsize, hseq, hfields, hchain, hlink⟩ := h
  have hlastx : ∀ c, (st.chunks ++ [(⟨joinS st.cur, st.chunks.length,
      st.start, st.start + (joinS st.cur).length, st.cur⟩ : IChunk)]).getLast? =
      some c → (⟨joinS st.cur, st.chunks.length, st.start,
        st.start + (joinS st.cur).length, st.cur⟩ : IChunk) = c := by
    intro c hc
    have hx : (st.chunks ++ [(⟨joinS st.cur, st.chunks.length, st.start,
        st.start + (joinS st.cur).length, st.cur⟩ : IChunk)]).getLast? =
        some ⟨joinS st.cur, st.chunks.length, st.start,
          st.start + (joinS st.cur).length, st.cur⟩ := by simp
    rw [hx] at hc
    exact Option.some.inj hc
  simp only [stepUnit]
  by_cases hemit : st.size + unit.length > csize ∧ st.cur ≠ []
  · rw [if_pos hemit]
    by_cases hcov : 0 < cov
    · rw [if_pos hcov]
      obtain ⟨hc1, hc2, hc3⟩ :=
        collectOverlap_spec st.cur (min cov (joinS st.cur).length)
      obtain ⟨hs1, hs2, hs3⟩ := stripSepPrefix_spec seps
        (collectOverlap st.cur (min cov (joinS st.cur).length)).1
        (collectOverlap st.cur (min cov (joinS st.cur).length)).2 hc2
      unfold StateInv
      refine ⟨?_, hvseq, hvfields, hvchain, ?_⟩
      · dsimp only
        rw [joinS_append]
        simp [joinS, hs2]
      · intro c hc
        dsimp only at hc
        have hceq := hlastx c hc
        rw [← hceq]
        refine ⟨(stripSepPrefix seps
            (collectOverlap st.cur (min cov (joinS st.cur).length)).1
            (collectOverlap st.cur (min cov (joinS st.cur).length)).2).1,
          hs1.trans hc1, List.prefix_append _ _, ?_, ?_, ?_, ?_⟩
        · dsimp only
          rw [← hs2]
          have := Nat.min_le_left cov (joinS st.cur).length
          omega
        · dsimp only
          rw [← hs2]
          have h1 := Nat.min_le_right cov (joinS st.cur).length
          omega
        · intro h0
          exact absurd h0 (by omega)
        · dsimp only
          have h1 := Nat.min_le_right cov (joinS st.cur).length
          omega
    · rw [if_neg hcov]
      unfold StateInv
      refine ⟨by simp [joinS], hvseq, hvfields, hvchain, ?_⟩
      intro c hc
      dsimp only at hc
      have hceq := hlastx c hc
      rw [← hceq]
      refine ⟨[], List.nil_suffix, List.nil_prefix, by simp [joinS],
        by simp [joinS], fun _ => rfl, by simp⟩
  · rw [if_neg hemit]
    unfold StateInv
    refine ⟨?_, hseq, hfields, hchain, ?_⟩
    · dsimp only
      rw [joinS_append]
      simp [joinS, hsize]
    · intro c hc
      dsimp only at hc
      obtain ⟨ov, ho1, ho2, ho3, ho4, ho5, ho6⟩ := hlink c hc
      exact ⟨ov, ho1, ho2.trans (List.prefix_append st.cur [unit]), ho3,
        ho4, ho5, ho6⟩

theorem foldl_stepUnit_inv (seps : List Str) (csize cov : Nat)
    (units : List Str) (st : ChunkState) (h : StateInv cov st) :
    StateInv cov (units.foldl (stepUnit seps csize cov) st) := by
  induction units generalizing st with
  | nil => exact h
  | cons u rest ih =>
    exact ih (stepUnit seps csize cov st u) (stepUnit_inv seps csize cov st u h)

theorem stateInv_init (cov : Nat) : StateInv cov ⟨[], [], 0, 0⟩ := by
  refine ⟨rfl, ?_, ?_, List.chain'_nil, ?_⟩
  · intro i hi
    simp at hi
  · intro c hc
    simp at hc
  · intro c hc
    simp at hc

theorem finalizeChunks_inv (cov : Nat) (st : ChunkState)
    (h : StateInv cov st) : ChunksInv cov (finalizeChunks st) := by
  have hv := chunksInv_append_virtual cov st h
  obtain ⟨hsize, hseq, hfields, hchain, hlink⟩ := h
  unfold finalizeChunks
  by_cases hcur : st.cur ≠ []
  · rw [if_pos hcur]
    exact hv
  · rw [if_neg hcur]
    exact ⟨hseq, hfields, hchain⟩

theorem chunkTextI_inv (seps : List Str) (csize cov : Nat) (text : Str) :
    ChunksInv cov (chunkTextI seps csize cov text) := by
  unfold chunkTextI
  by_cases htext : text = []
  · rw [if_pos htext]
    exact ⟨fun i hi => by simp at hi, fun c hc => by simp at hc,
      List.chain'_nil⟩
  · rw [if_neg htext]
    exact finalizeChunks_inv cov _
      (foldl_stepUnit_inv seps csize cov _ _ (stateInv_init cov))

/-! ## Claim theorems: overlap bound (C4) -/

/-- C4: consecutive chunks share a run of whole units `ov` — a suffix of
the earlier chunk's unit buffer and a prefix of the later chunk's — whose
total character length is at most chunk_overlap and which accounts
exactly for the positional overlap `end(i) - start(i+1)`; when
chunk_overlap = 0 the shared run is empty and the chunks are adjacent
(the new buffer starts empty). -/
theorem c4_overlap_bound (seps : List Str) (csize cov : Nat) (text : Str)
    (i : Nat) (h : i + 1 < (chunkTextI seps csize cov text).length) :
    ∃ ov : List Str,
      ov <:+ ((chunkTextI seps csize cov text).get ⟨i, by omega⟩).units ∧
      ov <+: ((chunkTextI seps csize cov text).get ⟨i + 1, h⟩).units ∧
      (joinS ov).length ≤ cov ∧
      ((chunkTextI seps csize cov text).get ⟨i + 1, h⟩).start +
          (joinS ov).length =
        ((chunkTextI seps csize cov text).get ⟨i, by omega⟩).endPos ∧
      (cov = 0 → ov = [] ∧
        ((chunkTextI seps csize cov text).get ⟨i + 1, h⟩).start =
          ((chunkTextI seps csize cov text).get ⟨i, by omega⟩).endPos) := by
  obtain ⟨-, -, hchain⟩ := chunkTextI_inv seps csize cov text
  rw [List.chain'_iff_get] at hchain
  obtain ⟨ov, h1, h2, h3, h4, h5, -⟩ := hchain i (by omega)
  refine ⟨ov, h1, h2, h3, h4, ?_⟩
  intro h0
  have hov := h5 h0
  subst hov
  refine ⟨rfl, ?_⟩
  simpa using h4

/-- C4 witness: the two consecutive chunks of the concrete scenario text
share the overlap run ["\n\n"] of length 2 ≤ 4. -/
theorem c4_overlap_bound_witness :
    ∃ ov : List Str,
      ov <:+ ((chunkTextI ["\n\n".data] 9 4 "AAAA\n\nBBBB\n\nCCCC".data).get
        ⟨0, by decide⟩).units ∧
      ov <+: ((chunkTextI ["\n\n".data] 9 4 "AAAA\n\nBBBB\n\nCCCC".data).get
        ⟨1, by decide⟩).units ∧
      (joinS ov).length ≤ 4 ∧
      ((chunkTextI ["\n\n".data] 9 4 "AAAA\n\nBBBB\n\nCCCC".data).get
          ⟨1, by decide⟩).start + (joinS ov).length =
        ((chunkTextI ["\n\n".data] 9 4 "AAAA\n\nBBBB\n\nCCCC".data).get
          ⟨0, by decide⟩).endPos ∧
      (4 = 0 → ov = [] ∧
        ((chunkTextI ["\n\n".data] 9 4 "AAAA\n\nBBBB\n\nCCCC".data).get
            ⟨1, by decide⟩).start =
          ((chunkTextI ["\n\n".data] 9 4 "AAAA\n\nBBBB\n\nCCCC".data).get
            ⟨0, by decide⟩).endPos) :=
  c4_overlap_bound ["\n\n".data] 9 4 "AAAA\n\nBBBB\n\nCCCC".data 0 (by decide)

/-! ## Claim theorems: chunk list invariants (C5) -/

theorem chain'_start_mono (L : List IChunk)
    (hc : List.Chain' (fun c c' : IChunk => c.start ≤ c'.start) L) :
    ∀ i j (hi : i < L.length) (hj : j < L.length), i ≤ j →
      (L.get ⟨i, hi⟩).start ≤ (L.get ⟨j, hj⟩).start := by
  intro i j
  induction j with
  | zero =>
    intro hi hj hij
    have : i = 0 := by omega
    subst this
    exact Nat.le_refl _
  | succ j ih =>
    intro hi hj hij
    by_cases heq : i = j + 1
    · subst heq
      exact Nat.le_refl _
    · have hij' : i ≤ j := by omega
      have hj' : j < L.length := by omega
      refine Nat.le_trans (ih hi hj' hij') ?_
      rw [List.chain'_iff_get] at hc
      exact hc j (by omega)

/-- C5: every chunk list produced by `chunk_text` satisfies
`end - start = len(content)` (stated additively: `end = start + len`),
dense 0-based sequence numbers, and non-decreasing start offsets. -/
theorem c5_chunk_invariants (seps : List Str) (csize cov : Nat)
    (text : Str) :
    (∀ c ∈ chunkText seps csize cov text,
      c.endPos = c.start + c.content.length) ∧
    (∀ i (h : i < (chunkText seps csize cov text).length),
      ((chunkText seps csize cov text).get ⟨i, h⟩).seq = i) ∧
    (∀ i j (hi : i < (chunkText seps csize cov text).length)
      (hj : j < (chunkText seps csize cov text).length), i ≤ j →
      ((chunkText seps csize cov text).get ⟨i, hi⟩).start ≤
        ((chunkText seps csize cov text).get ⟨j, hj⟩).start) := by
  obtain ⟨hseq, hfields, hchain⟩ := chunkTextI_inv seps csize cov text
  refine ⟨?_, ?_, ?_⟩
  · intro c hc
    simp only [chunkText, List.mem_map] at hc
    obtain ⟨ic, hic, rfl⟩ := hc
    exact (hfields ic hic).1
  · intro i h
    simp only [chunkText, List.length_map] at h
    simp only [chunkText, List.get_eq_getElem, List.getElem_map]
    exact hseq i h
  · have hmono : List.Chain' (fun c c' : IChunk => c.start ≤ c'.start)
        (chunkTextI seps csize cov text) := by
      apply List.Chain'.imp ?_ hchain
      intro c c' hp
      obtain ⟨ov, -, -, -, -, -, h6⟩ := hp
      exact h6
    intro i j hi hj hij
    simp only [chunkText, List.length_map] at hi hj
    simp only [chunkText, List.get_eq_getElem, List.getElem_map]
    exact chain'_start_mono _ hmono i j hi hj hij

/-- C5 witness: in the concrete scenario, chunk 0's start is at most
chunk 2's start. -/
theorem c5_chunk_invariants_witness :
    ((chunkText ["\n\n".data] 9 4 "AAAA\n\nBBBB\n\nCCCC".data).get
        ⟨0, by decide⟩).start ≤
      ((chunkText ["\n\n".data] 9 4 "AAAA\n\nBBBB\n\nCCCC".data).get
        ⟨2, by decide⟩).start :=
  (c5_chunk_invariants ["\n\n".data] 9 4 "AAAA\n\nBBBB\n\nCCCC".data).2.2
    0 2 (by decide) (by decide) (by decide)

/-! ## Page reassembly order (towards C8)

`sorted(..., key=lambda x: x[3])` is a stable ascending sort.  The
collected `results` list is the concatenation of per-page blocks in
completion order; each block's lines carry that block's page number, and
page numbers are distinct across blocks.  Stability and sortedness force
the sorted output to be the page-ordered concatenation of the blocks. -/

theorem orderedInsert_append_of_lt (a : PageLine) (l1 l2 : List PageLine)
    (h : ∀ y ∈ l1, ¬a.2 ≤ y.2) :
    List.orderedInsert (fun x y : PageLine => x.2 ≤ y.2) a (l1 ++ l2) =
      l1 ++ List.orderedInsert (fun x y : PageLine => x.2 ≤ y.2) a l2 := by
  induction l1 with
  | nil => rfl
  | cons b t ih =>
    simp only [List.cons_append, List.orderedInsert]
    rw [if_neg (h b (by simp))]
    simp only [List.append_eq]
    rw [ih (fun y hy => h y (by simp [hy]))]

theorem orderedInsert_eq_cons_of_le (a : PageLine) (l : List PageLine)
    (h : ∀ y ∈ l, a.2 ≤ y.2) :
    List.orderedInsert (fun x y : PageLine => x.2 ≤ y.2) a l = a :: l := by
  cases l with
  | nil => rfl
  | cons b t =>
    simp only [List.orderedInsert]
    rw [if_pos (h b (by simp))]

theorem insertionSort_append_eq_foldr (l m : List PageLine) :
    List.insertionSort (fun x y : PageLine => x.2 ≤ y.2) (l ++ m) =
      l.foldr (List.orderedInsert (fun x y : PageLine => x.2 ≤ y.2))
        (List.insertionSort (fun x y : PageLine => x.2 ≤ y.2) m) := by
  induction l with
  | nil => rfl
  | cons b t ih => simp [List.insertionSort, ih]

theorem foldr_orderedInsert_block (b : List PageLine) (k : Nat)
    (hb : ∀ l ∈ b, l.2 = k) (l1 l2 : List PageLine)
    (h1 : ∀ y ∈ l1, y.2 < k) (h2 : ∀ y ∈ l2, k < y.2) :
    b.foldr (List.orderedInsert (fun x y : PageLine => x.2 ≤ y.2))
        (l1 ++ l2) = l1 ++ b ++ l2 := by
  induction b with
  | nil => simp
  | cons u us ih =>
    simp only [List.foldr_cons]
    rw [ih (fun l hl => hb l (by simp [hl]))]
    have hu : u.2 = k := hb u (by simp)
    rw [List.append_assoc]
    rw [orderedInsert_append_of_lt u l1 (us ++ l2)
      (fun y hy => by have := h1 y hy; omega)]
    rw [orderedInsert_eq_cons_of_le u (us ++ l2) ?hle]
    · simp
    case hle =>
      intro y hy
      rw [List.mem_append] at hy
      rcases hy with hy | hy
      · have := hb y (by simp [hy])
        omega
      · have := h2 y hy
        omega

theorem sortByPage_blocks (blocks arrival : List (Nat × List PageLine))
    (hperm : arrival.Perm blocks)
    (hsorted : blocks.Pairwise (fun a b => a.1 < b.1))
    (htag : ∀ b ∈ blocks, ∀ l ∈ b.2, l.2 = b.1) :
    sortByPage ((arrival.map (·.2)).flatten) =
      (blocks.map (·.2)).flatten := by
  induction arrival generalizing blocks with
  | nil =>
    have hb : blocks = [] := List.Perm.eq_nil hperm.symm
    subst hb
    rfl
  | cons b rest ih =>
    have hmem : b ∈ blocks := hperm.subset (List.mem_cons_self b rest)
    obtain ⟨l1, l2, rfl⟩ := List.append_of_mem hmem
    have hrest : rest.Perm (l1 ++ l2) :=
      (List.perm_cons b).mp (hperm.trans List.perm_middle)
    obtain ⟨hp1, hp2, hcross⟩ := List.pairwise_append.mp hsorted
    obtain ⟨hbl2, hpl2⟩ := List.pairwise_cons.mp hp2
    have hsorted' : (l1 ++ l2).Pairwise (fun a b => a.1 < b.1) :=
      List.pairwise_append.mpr ⟨hp1, hpl2,
        fun x hx y hy => hcross x hx y (List.mem_cons_of_mem b hy)⟩
    have htag' : ∀ bb ∈ l1 ++ l2, ∀ l ∈ bb.2, l.2 = bb.1 := by
      intro bb hbb
      rw [List.mem_append] at hbb
      rcases hbb with hbb | hbb
      · exact htag bb (by simp [hbb])
      · exact htag bb (by simp [hbb])
    have hih := ih (l1 ++ l2) hrest hsorted' htag'
    show List.insertionSort (fun x y : PageLine => x.2 ≤ y.2)
        (((b :: rest).map (·.2)).flatten) = _
    rw [List.map_cons, List.flatten_cons, insertionSort_append_eq_foldr]
    have hsort : List.insertionSort (fun x y : PageLine => x.2 ≤ y.2)
        ((rest.map (·.2)).flatten) =
        ((l1.map (·.2)).flatten ++ (l2.map (·.2)).flatten) := by
      have := hih
      simp only [sortByPage] at this
      rw [this, List.map_append, List.flatten_append]
    rw [hsort]
    rw [foldr_orderedInsert_block b.2 b.1 (htag b hmem)
      ((l1.map (·.2)).flatten) ((l2.map (·.2)).flatten) ?h1 ?h2]
    · simp [List.flatten_append]
    case h1 =>
      intro y hy
      rw [List.mem_flatten] at hy
      obtain ⟨s, hs, hys⟩ := hy
      rw [List.mem_map] at hs
      obtain ⟨bb, hbb, rfl⟩ := hs
      have hkey := htag bb (by simp [hbb]) y hys
      have hlt := hcross bb hbb b (List.mem_cons_self b l2)
      omega
    case h2 =>
      intro y hy
      rw [List.mem_flatten] at hy
      obtain ⟨s, hs, hys⟩ := hy
      rw [List.mem_map] at hs
      obtain ⟨bb, hbb, rfl⟩ := hs
      have hkey := htag bb (by simp [hbb]) y hys
      have hlt := hbl2 bb hbb
      omega

/-! ## Claim theorems: page reassembly order (C8) -/

/-- C8: whatever order the per-page worker blocks arrive in (`arrival` is
any permutation of the page blocks), the stable sort by page number
restores exactly the page-ordered concatenation of the blocks, so the
reassembled line list — and hence the document text — is page 0's lines
followed by page 1's, and so on. -/
theorem c8_page_reassembly_order (blocks arrival : List (Nat × List PageLine))
    (hperm : arrival.Perm blocks)
    (hsorted : blocks.Pairwise (fun a b => a.1 < b.1))
    (htag : ∀ b ∈ blocks, ∀ l ∈ b.2, l.2 = b.1) :
    sortByPage ((arrival.map (·.2)).flatten) =
      (blocks.map (·.2)).flatten ∧
    reassembleLines ((arrival.map (·.2)).flatten) =
      ((blocks.map (·.2)).flatten).map (·.1) := by
  have hmain := sortByPage_blocks blocks arrival hperm hsorted htag
  exact ⟨hmain, by rw [reassembleLines, hmain]⟩

/-- C8 witness: the spec's example — pages 0 and 1 completed in reverse
order — reassembles as page 0's lines then page 1's. -/
theorem c8_page_reassembly_order_witness :
    sortByPage (((([(1, [("p2".data, 1), ("p3".data, 1)]),
        (0, [("p0".data, 0), ("p1".data, 0)])] :
          List (Nat × List PageLine)).map (·.2)).flatten)) =
      ((([(0, [("p0".data, 0), ("p1".data, 0)]),
        (1, [("p2".data, 1), ("p3".data, 1)])] :
          List (Nat × List PageLine)).map (·.2)).flatten) :=
  (c8_page_reassembly_order
    [(0, [("p0".data, 0), ("p1".data, 0)]), (1, [("p2".data, 1), ("p3".data, 1)])]
    [(1, [("p2".data, 1), ("p3".data, 1)]), (0, [("p0".data, 0), ("p1".data, 0)])]
    (by decide) (by decide) (by decide)).1

/-- C9 witness: a chunk whose content holds a lone surrogate 0xD800 and
one image with a surrogate in its caption — both fields come back with
the surrogate replaced and all fields scalar-clean. -/
theorem c9_proto_fields_valid_utf8_witness :
    (convertChunkToProto
        ⟨[0x41, 0xd800], [⟨[0x42], [0xdfff], [], [0x43]⟩]⟩).content =
      ([0x41, 0xd800] : PyText).map
        (fun c => if isSurrogateCp c then 0xfffd else c) :=
  (c9_proto_fields_valid_utf8 ⟨[0x41, 0xd800], [⟨[0x42], [0xdfff], [], [0x43]⟩]⟩
    (by decide) (by decide)).1

end DocReader
